import Mathlib

set_option autoImplicit false

/-
Verification of the SlopChop core against its natural-language specification.
The Rust sources are embedded shallowly: pure string/list computations become
Lean functions, filesystem trees become association lists from paths to
contents, and machine floats (the entropy value) are abstracted as rational
inputs to the decision logic that consumes them.
-/

namespace SlopChop

/-- Special characters, written via code points so that delimiter characters
never appear literally inside the development. -/
def chQuote : Char := Char.ofNat 34

def chBackslash : Char := Char.ofNat 92

def chLBrace : Char := Char.ofNat 123

def chRBrace : Char := Char.ofNat 125

def chLParen : Char := Char.ofNat 40

def chRParen : Char := Char.ofNat 41

def chLBracket : Char := Char.ofNat 91

def chRBracket : Char := Char.ofNat 93

def chApos : Char := Char.ofNat 39

/-- True iff the first char list is a leading segment of the second. -/
def listPrefixOf : List Char → List Char → Bool
  | [], _ => true
  | _ :: _, [] => false
  | a :: as, b :: bs => a = b && listPrefixOf as bs

/-- True iff the needle occurs as a contiguous segment of the haystack. -/
def listContainsSub (needle : List Char) : List Char → Bool
  | [] => needle.isEmpty
  | c :: rest => listPrefixOf needle (c :: rest) || listContainsSub needle rest

/-- Substring containment, mirroring Rust `str::contains` for literal needles. -/
def strContains (hay needle : String) : Bool :=
  listContainsSub needle.toList hay.toList

/-- Mirrors Rust `str::starts_with` for string patterns. -/
def strStarts (s pre : String) : Bool :=
  listPrefixOf pre.toList s.toList

/-- Mirrors Rust `str::ends_with` for string patterns. -/
def strEnds (s suf : String) : Bool :=
  listPrefixOf suf.toList.reverse s.toList.reverse

/-- Splits a char list at every occurrence of the separator. -/
def splitOnChar (sep : Char) : List Char → List (List Char)
  | [] => [[]]
  | c :: rest =>
    let r := splitOnChar sep rest
    if c = sep then [] :: r
    else
      match r with
      | h :: t => (c :: h) :: t
      | [] => [[c]]

/-- Unicode White_Space property, mirroring Rust `char::is_whitespace`. -/
def rustIsWhitespace (c : Char) : Bool :=
  let n := c.toNat
  n = 9 || n = 10 || n = 11 || n = 12 || n = 13 || n = 32 || n = 133 ||
    n = 160 || n = 5760 || (8192 ≤ n && n ≤ 8202) || n = 8232 || n = 8233 ||
    n = 8239 || n = 8287 || n = 12288

/-- Mirrors Rust `s.trim().is_empty()`: true iff every char is whitespace. -/
def isBlankStr (s : String) : Bool :=
  s.toList.all rustIsWhitespace

/-- Quotes a string between apostrophes, as the Rust message formatting does. -/
def quoted (s : String) : String :=
  chApos.toString ++ s ++ chApos.toString

namespace Apply

/-- Manifest operation, from `src/apply/types.rs` (`enum Operation`). -/
inductive Operation where
  | Update
  | New
  | Delete
deriving DecidableEq, Repr

/-- A manifest entry, from `src/apply/types.rs` (`struct ManifestEntry`). -/
structure ManifestEntry where
  path : String
  operation : Operation
deriving DecidableEq, Repr

/-- File block contents, from `src/apply/types.rs` (`struct FileContent`). -/
structure FileContent where
  content : String
  lineCount : Nat
deriving DecidableEq, Repr

/-- The applicator's result type, from `src/apply/types.rs` (`enum ApplyOutcome`). -/
inductive ApplyOutcome where
  | Success (written deleted : List String) (backedUp : Bool)
  | ValidationFailure (errors missing : List String) (aiMessage : String)
  | ParseError (msg : String)
  | WriteError (msg : String)
deriving DecidableEq, Repr

/-- `type Manifest = Vec<ManifestEntry>`. -/
abbrev Manifest := List ManifestEntry

/-- `type ExtractedFiles = HashMap<String, FileContent>`, modelled as an
association list; map iteration order becomes list order. -/
abbrev ExtractedFiles := List (String × FileContent)

/-- `MARKDOWN_PATTERNS` from `src/apply/validator.rs` (three backticks written
via code points). -/
def MARKDOWN_PATTERNS : List String :=
  [String.mk [Char.ofNat 96, Char.ofNat 96, Char.ofNat 96], "~~~"]

/-- `TRUNCATION_MARKERS` from `src/apply/validator.rs`. -/
def TRUNCATION_MARKERS : List String :=
  ["// ...", "/* ... */", "// ... existing code ...", "// ... rest of file ...",
   "# ...", "<!-- ... -->"]

/-- `DANGEROUS_PATHS` from `src/apply/validator.rs`. -/
def DANGEROUS_PATHS : List String :=
  [".git", ".env", "id_rsa", "id_ed25519", "credentials", "secrets",
   ".ssh", ".aws", ".kube"]

/-- True iff the path has a `..` component; mirrors the `Component::ParentDir`
scan in `check_path_safety` (Unix path semantics: components are the nonempty
pieces between slashes). -/
def hasParentDir (p : String) : Bool :=
  ((splitOnChar '/' p.toList).filter (fun c => c ≠ [])).any
    (fun c => c = ['.', '.'])

/-- `check_path_safety` from `src/apply/validator.rs`, Unix path semantics
(`Path::is_absolute` is a leading slash). -/
def checkPathSafety (p : String) : Except String Unit :=
  if strStarts p "/" then .error "Absolute paths are forbidden"
  else if hasParentDir p then .error "Directory traversal (../) is forbidden"
  else if strStarts p ".git" || strContains p "/.git" then
    .error "Modifying .git internals is forbidden"
  else
    match DANGEROUS_PATHS.find? (fun d => strEnds p d || strContains p ("/" ++ d)) with
    | some d => .error ("Modifying sensitive file " ++ quoted d ++ " is forbidden")
    | none => .ok ()

/-- The rejection condition of `check_path_safety` written as a predicate, to
characterize exactly which paths the validator rejects: absolute paths,
`..` traversal, `.git` as a string prefix or after a slash, and the dangerous
names at the end of the path or after a slash. -/
def rejectsSpec (p : String) : Prop :=
  strStarts p "/" = true ∨ hasParentDir p = true ∨
    (strStarts p ".git" || strContains p "/.git") = true ∨
    ∃ d ∈ DANGEROUS_PATHS, (strEnds p d || strContains p ("/" ++ d)) = true

/-- `detect_markdown_block` from `src/apply/validator.rs`. -/
def detectMarkdownBlock (content : String) : Option String :=
  MARKDOWN_PATTERNS.find? (fun pat => strContains content pat)

/-- `detect_truncation` from `src/apply/validator.rs`. -/
def detectTruncation (content : String) : Option String :=
  TRUNCATION_MARKERS.find? (fun mk => strContains content mk)

/-- The state machine loop inside `is_balanced`: chars, bracket stack,
in-string flag, escaped flag. -/
def balancedGo : List Char → List Char → Bool → Bool → Bool
  | [], stack, _, _ => stack.isEmpty
  | c :: rest, stack, inString, escaped =>
    if escaped then balancedGo rest stack inString false
    else if c = chBackslash then balancedGo rest stack inString true
    else if c = chQuote then balancedGo rest stack (!inString) false
    else if inString then balancedGo rest stack inString false
    else if c = chLBrace || c = chLParen || c = chLBracket then
      balancedGo rest (c :: stack) inString false
    else if c = chRBrace then
      match stack with
      | top :: stack' => if top = chLBrace then balancedGo rest stack' inString false else false
      | [] => false
    else if c = chRParen then
      match stack with
      | top :: stack' => if top = chLParen then balancedGo rest stack' inString false else false
      | [] => false
    else if c = chRBracket then
      match stack with
      | top :: stack' => if top = chLBracket then balancedGo rest stack' inString false else false
      | [] => false
    else balancedGo rest stack inString false

/-- `is_balanced` from `src/apply/validator.rs`: Python files are skipped,
otherwise brackets outside string literals must balance. -/
def isBalanced (path content : String) : Bool :=
  if strEnds path ".py" then true
  else balancedGo content.toList [] false false

/-- `validate_single_file` from `src/apply/validator.rs`, returning the error
strings it appends: a failing path-safety check short-circuits the file, then
the empty check short-circuits, then markdown, truncation and balance errors
accumulate. -/
def validateSingleFile (path content : String) : List String :=
  match checkPathSafety path with
  | .error e => [path ++ ": Security Violation - " ++ e]
  | .ok () =>
    if isBlankStr content then [path ++ ": File is empty"]
    else
      (match detectMarkdownBlock content with
       | some pat => [path ++ ": Contains markdown code block " ++ quoted pat ++
           " - AI output must use <file> tags only"]
       | none => []) ++
      (match detectTruncation content with
       | some mk => [path ++ ": Detected truncation marker " ++ quoted mk ++
           ". Do not lazy-load code."]
       | none => []) ++
      (if isBalanced path content then []
       else [path ++ ": Unbalanced braces/brackets detected. File may be truncated."])

/-- True iff the extracted map has a file block for the path
(`extracted.contains_key`). -/
def containsKey (ext : ExtractedFiles) (p : String) : Bool :=
  ext.any (fun e => e.1 = p)

/-- `check_missing` from `src/apply/validator.rs`: non-Delete manifest entries
without a file block, in manifest order. -/
def checkMissing (m : Manifest) (ext : ExtractedFiles) : List String :=
  (m.filter (fun e => e.operation ≠ Operation.Delete && !containsKey ext e.path)).map
    (fun e => e.path)

/-- `check_content` from `src/apply/validator.rs`: per-file errors concatenated
in iteration order. -/
def checkContent (ext : ExtractedFiles) : List String :=
  (ext.map (fun e => validateSingleFile e.1 e.2.content)).flatten

/-- Modelled from the spec: `messages::format_ai_rejection` (the file
`src/apply/messages.rs` is absent from the sources); the spec only requires a
formatted human-readable message listing the missing paths and the errors. -/
def formatAiRejection (missing errors : List String) : String :=
  String.intercalate "; " (missing ++ errors)

/-- `validate` from `src/apply/validator.rs`. The source constructs the
Success variant without a delete list, so it is completed with the empty list. -/
def validate (m : Manifest) (ext : ExtractedFiles) : ApplyOutcome :=
  let missing := checkMissing m ext
  let errors := checkContent ext
  if !missing.isEmpty || !errors.isEmpty then
    .ValidationFailure errors missing (formatAiRejection missing errors)
  else
    .Success (ext.map (fun e => e.1)) [] true

/-- Projection of the error list of an outcome (empty for non-failures). -/
def errorsOf : ApplyOutcome → List String
  | .ValidationFailure errors _ _ => errors
  | _ => []

/-- Projection of the missing list of an outcome (empty for non-failures). -/
def missingOf : ApplyOutcome → List String
  | .ValidationFailure _ missing _ => missing
  | _ => []

/-- `process_input` from `src/apply/mod.rs`: the leading guard returns
`ParseError("Input is empty")` on blank input before anything else runs; the
rest of the pipeline (plan check, validation, write) is the `rest`
continuation over an abstract filesystem state `σ`. -/
def processInput {σ : Type} (rest : σ → ApplyOutcome × σ) (content : String)
    (fs : σ) : ApplyOutcome × σ :=
  if isBlankStr content then (.ParseError "Input is empty", fs)
  else rest fs

end Apply

namespace Analysis

/-- A violation record, from `src/types.rs` (`struct Violation`); the law tag
is a string constant in the source. -/
structure Violation where
  row : Nat
  message : String
  law : String
deriving DecidableEq, Repr

/-- The rule thresholds consumed by the checks, from the `[rules]`
configuration table. -/
structure RuleConfig where
  maxFileTokens : Nat
  maxCyclomaticComplexity : Nat
  maxNestingDepth : Nat
  maxFunctionArgs : Nat
  maxFunctionWords : Nat
deriving Repr

/-- `is_all_caps` from `src/analysis/checks.rs` (ASCII reading of Rust's
`is_alphabetic`/`is_uppercase`), on an underscore-separated part. -/
def isAllCaps (s : List Char) : Bool :=
  s.any Char.isAlpha && s.all (fun c => !c.isAlpha || c.isUpper)

/-- `count_camel_parts` from `src/analysis/checks.rs`: one word for the first
character, then one more for every later uppercase character. -/
def countCamelParts : List Char → Nat
  | [] => 0
  | _ :: rest => rest.foldl (fun w c => if c.isUpper then w + 1 else w) 1

/-- `count_words` from `src/analysis/checks.rs`: fold over the
underscore-separated parts. -/
def countWords (name : String) : Nat :=
  (splitOnChar '_' name.toList).foldl
    (fun total part =>
      if part = [] then total
      else if isAllCaps part then total + 1
      else total + countCamelParts part) 0

/-- The word count the amended claim describes: per underscore part, an
all-caps part counts 1, a mixed part counts 1 plus one per uppercase letter
after its first character (consecutive uppercase letters each count). -/
def wordCountAmended (name : String) : Nat :=
  ((splitOnChar '_' name.toList).map (fun part =>
    match part with
    | [] => 0
    | _ :: rest => if isAllCaps part then 1 else 1 + rest.countP (fun c => c.isUpper))).sum

/-- `process_naming_match` from `src/analysis/checks.rs` with its captures
abstracted to (identifier text, 1-based row) pairs. -/
def processNamingMatch (captures : List (String × Nat)) (cfg : RuleConfig) :
    List Violation :=
  (captures.map (fun cap =>
    if countWords cap.1 > cfg.maxFunctionWords then
      [⟨cap.2, "Function " ++ quoted cap.1 ++ " has " ++ toString (countWords cap.1) ++
        " words (Max: " ++ toString cfg.maxFunctionWords ++ ")", "LAW OF CONCISENESS"⟩]
    else [])).flatten

/-- `check_naming` from `src/analysis/checks.rs`: skipped entirely when the
filename matches an ignore pattern. -/
def checkNaming (ignoreNamingOn : List String) (filename : String)
    (captures : List (String × Nat)) (cfg : RuleConfig) : List Violation :=
  if ignoreNamingOn.any (fun pat => strContains filename pat) then []
  else processNamingMatch captures cfg

/-- Per-function metrics computed by the syntax-tree passes of
`src/analysis/checks.rs`; the body pair is (max nesting depth, cyclomatic
complexity), absent when the function node has no body field. -/
structure FuncMeasure where
  name : String
  row : Nat
  argCount : Nat
  body : Option (Nat × Nat)
deriving Repr

/-- `check_argument_count` from `src/analysis/checks.rs`. -/
def checkArgumentCount (f : FuncMeasure) (cfg : RuleConfig) : List Violation :=
  if f.argCount > cfg.maxFunctionArgs then
    [⟨f.row, "Function " ++ quoted f.name ++ " has " ++ toString f.argCount ++
      " args (Max: " ++ toString cfg.maxFunctionArgs ++ ")", "LAW OF COMPLEXITY"⟩]
  else []

/-- `check_nesting_depth` from `src/analysis/checks.rs`. -/
def checkNestingDepthV (row depth : Nat) (cfg : RuleConfig) : List Violation :=
  if depth > cfg.maxNestingDepth then
    [⟨row, "Deep Nesting: Max depth is " ++ toString depth ++
      ". Extract logic. (Max: " ++ toString cfg.maxNestingDepth ++ ")",
      "LAW OF COMPLEXITY"⟩]
  else []

/-- `check_cyclomatic_complexity` from `src/analysis/checks.rs`. -/
def checkCyclomaticV (row complexity : Nat) (cfg : RuleConfig) : List Violation :=
  if complexity > cfg.maxCyclomaticComplexity then
    [⟨row, "High Complexity: Score is " ++ toString complexity ++
      ". Hard to test. (Max: " ++ toString cfg.maxCyclomaticComplexity ++ ")",
      "LAW OF COMPLEXITY"⟩]
  else []

/-- `analyze_function_node` plus `check_function_body` from
`src/analysis/checks.rs`. -/
def analyzeFunctionNode (f : FuncMeasure) (cfg : RuleConfig) : List Violation :=
  checkArgumentCount f cfg ++
  (match f.body with
   | some bd => checkNestingDepthV f.row bd.1 cfg ++ checkCyclomaticV f.row bd.2 cfg
   | none => [])

/-- `add_banned_violation` from `src/analysis/checks.rs`. -/
def addBannedViolation (text : String) (row : Nat) : List Violation :=
  if strContains text "unwrap" then
    [⟨row, "Banned: " ++ quoted ".unwrap()" ++ " found. Use ? or expect().",
      "LAW OF PARANOIA"⟩]
  else if strContains text "expect" then
    [⟨row, "Banned: " ++ quoted ".expect()" ++ " found. Use handleable errors.",
      "LAW OF PARANOIA"⟩]
  else []

/-- `is_banned_node` from `src/analysis/checks.rs`. -/
def isBannedNode (kind text : String) : Bool :=
  kind = "method_invocation" || kind = "call_expression" ||
    kind = "method_call_expression" || strContains text "unwrap" ||
    strContains text "expect"

/-- `check_banned` plus `process_banned_matches` from
`src/analysis/checks.rs`: skipped when the file name contains `test` or
`spec`; captures are (node kind, node text, 1-based row). -/
def checkBanned (filename : String) (captures : List (String × String × Nat)) :
    List Violation :=
  let fname := ((splitOnChar '/' filename.toList).getLast?).getD []
  if listContainsSub "test".toList fname || listContainsSub "spec".toList fname then []
  else
    (captures.map (fun c =>
      if isBannedNode c.1 c.2.1 then addBannedViolation c.2.1 c.2.2 else [])).flatten

/-- The token-limit check of `analyze_file` in `src/analysis/mod.rs`. -/
def atomicityCheck (tokens maxFileTokens : Nat) (ignored : Bool) : List Violation :=
  if tokens > maxFileTokens && !ignored then
    [⟨1, "File size is " ++ toString tokens ++ " tokens (Limit: " ++
      toString maxFileTokens ++ ")", "LAW OF ATOMICITY"⟩]
  else []

/-- Per-scope metrics of the deep-analysis pass, from
`src/analysis/v2/mod.rs`. -/
structure ScopeMeasure where
  name : String
  row : Nat
  lcom4 : Nat
  cbo : Nat
  sfout : Nat
deriving Repr

/-- `check_scope_cohesion` from `src/analysis/v2/mod.rs` (details dropped,
only row/message/law retained). -/
def checkScopeCohesion (s : ScopeMeasure) : List Violation :=
  if s.lcom4 > 1 then
    [⟨s.row, "Class " ++ quoted s.name ++ " has low cohesion (LCOM4: " ++
      toString s.lcom4 ++ ")", "DEEP ANALYSIS"⟩]
  else []

/-- `check_scope_coupling` from `src/analysis/v2/mod.rs`. -/
def checkScopeCoupling (s : ScopeMeasure) : List Violation :=
  (if s.cbo > 9 then
    [⟨s.row, "Class " ++ quoted s.name ++ " is tightly coupled (CBO: " ++
      toString s.cbo ++ ")", "DEEP ANALYSIS"⟩]
   else []) ++
  (if s.sfout > 7 then
    [⟨s.row, "Class " ++ quoted s.name ++ " has high fan-out (Max SFOUT: " ++
      toString s.sfout ++ ")", "DEEP ANALYSIS"⟩]
   else [])

/-- The tree-sitter-independent measurements of one file: everything the
emission sites of the analyzer inspect. -/
structure FileMeasure where
  tokens : Nat
  tokensIgnored : Bool
  filename : String
  ignoreNamingOn : List String
  namingCaptures : List (String × Nat)
  funcs : List FuncMeasure
  bannedCaptures : List (String × String × Nat)
  scopes : List ScopeMeasure
deriving Repr

/-- All violations a file can accumulate across the analysis passes of
`src/analysis/mod.rs` (token check, naming, metrics, banned constructs) and
the deep-analysis merge of `src/analysis/v2/mod.rs`. -/
def analyzeViolations (cfg : RuleConfig) (m : FileMeasure) : List Violation :=
  atomicityCheck m.tokens cfg.maxFileTokens m.tokensIgnored ++
  checkNaming m.ignoreNamingOn m.filename m.namingCaptures cfg ++
  (m.funcs.map (fun f => analyzeFunctionNode f cfg)).flatten ++
  checkBanned m.filename m.bannedCaptures ++
  (m.scopes.map (fun s => checkScopeCohesion s ++ checkScopeCoupling s)).flatten

/-- The closed law set asserted by the spec. -/
def specLawSet : List String :=
  ["LAW OF ATOMICITY", "LAW OF COMPLEXITY", "LAW OF BLUNTNESS",
   "LAW OF PARANOIA", "DEEP ANALYSIS"]

/-- The law set the code actually emits. -/
def emittedLawSet : List String :=
  ["LAW OF ATOMICITY", "LAW OF CONCISENESS", "LAW OF COMPLEXITY",
   "LAW OF PARANOIA", "DEEP ANALYSIS"]

end Analysis

namespace Heuristics

/-- `MIN_TEXT_ENTROPY` from `src/heuristics.rs` (the float 3.5 as a rational). -/
def MIN_TEXT_ENTROPY : ℚ := 7/2

/-- `MAX_TEXT_ENTROPY` from `src/heuristics.rs` (the float 5.5 as a rational). -/
def MAX_TEXT_ENTROPY : ℚ := 11/2

/-- `should_keep` from `src/heuristics.rs`, its three data sources abstracted
to inputs: whether the known-code regexes match, the computed byte entropy
(`none` when the file is unreadable), and whether the lowercased content has a
build-system marker. The branch structure mirrors the source exactly,
including the final fall-through. -/
def shouldKeep (isKnownCode : Bool) (entropy : Option ℚ) (hasMarkers : Bool) :
    Bool :=
  if isKnownCode then true
  else
    match entropy with
    | none => false
    | some e =>
      if ¬(MIN_TEXT_ENTROPY ≤ e ∧ e ≤ MAX_TEXT_ENTROPY) then false
      else if hasMarkers then true
      else true

/-- The keep decision the claim describes for unknown files: entropy in range
and a build marker present. -/
def keepPerClaim (e : ℚ) (hasMarkers : Bool) : Bool :=
  decide (MIN_TEXT_ENTROPY ≤ e ∧ e ≤ MAX_TEXT_ENTROPY) && hasMarkers

end Heuristics

namespace Graph

/-- The `defines`/`references` maps of `RepoGraph` in
`src/graph/rank/graph.rs`: symbol name to the files that define (resp.
reference) it, as an association list. -/
abbrev SymMap := List (String × List String)

/-- `add_files` from `src/graph/rank/graph.rs`: collect every file of the
collection other than the anchor. -/
def addFiles (collection : List String) (anchor : String) : List String :=
  collection.filter (fun f => f ≠ anchor)

/-- The `Direction::Dependent` arm of `collect_related`: files referencing a
symbol the anchor defines. -/
def relatedDependent (defines references : SymMap) (anchor : String) :
    List String :=
  ((defines.filter (fun sd => anchor ∈ sd.2)).map (fun sd =>
    match references.find? (fun e => e.1 = sd.1) with
    | some e => addFiles e.2 anchor
    | none => [])).flatten

/-- The `Direction::Dependency` arm of `collect_related`: files defining a
symbol the anchor references. -/
def relatedDependency (defines references : SymMap) (anchor : String) :
    List String :=
  ((references.filter (fun sr => anchor ∈ sr.2)).map (fun sr =>
    match defines.find? (fun e => e.1 = sr.1) with
    | some e => addFiles e.2 anchor
    | none => [])).flatten

/-- `RepoGraph::neighbors` from `src/graph/rank/graph.rs`: the union of both
directions (the `HashSet` becomes a deduplicated list). -/
def neighbors (defines references : SymMap) (anchor : String) : List String :=
  (relatedDependent defines references anchor ++
    relatedDependency defines references anchor).dedup

/-- Insertion of a string into a sorted list, for the `deps.sort()` call. -/
def insertSorted (x : String) : List String → List String
  | [] => [x]
  | y :: ys => if x ≤ y then x :: y :: ys else y :: insertSorted x ys

/-- Sorting used to model `Vec::sort` in `query_direction`. -/
def sortStrings (l : List String) : List String :=
  l.foldr insertSorted []

/-- `RepoGraph::dependencies` via `query_direction` from
`src/graph/rank/graph.rs`. -/
def dependencies (defines references : SymMap) (anchor : String) : List String :=
  sortStrings ((relatedDependency defines references anchor).dedup)

/-- `RepoGraph::dependents` via `query_direction` from
`src/graph/rank/graph.rs`. -/
def dependents (defines references : SymMap) (anchor : String) : List String :=
  sortStrings ((relatedDependent defines references anchor).dedup)

end Graph

namespace Pack

/-- `should_include` from `src/pack/focus.rs`. -/
def shouldInclude (p : String) (foveal peripheral allSet : List String) : Bool :=
  p ∉ foveal && p ∉ peripheral && p ∈ allSet

/-- `expand_frontier` from `src/pack/focus.rs` (the result `HashSet` becomes a
deduplicated list). -/
def expandFrontier (defines references : Graph.SymMap)
    (frontier foveal peripheral allSet : List String) : List String :=
  ((frontier.map (fun anchor =>
    (Graph.neighbors defines references anchor).filter
      (fun n => shouldInclude n foveal peripheral allSet))).flatten).dedup

/-- The loop of `collect_peripheral` from `src/pack/focus.rs`: `depth`
expansions, each extending the peripheral set and advancing the frontier. -/
def collectPeripheralLoop (defines references : Graph.SymMap)
    (foveal allSet : List String) : Nat → List String → List String → List String
  | 0, _, peripheral => peripheral
  | d + 1, frontier, peripheral =>
    let next := expandFrontier defines references frontier foveal peripheral allSet
    collectPeripheralLoop defines references foveal allSet d next (peripheral ++ next)

/-- `compute_sets` from `src/pack/focus.rs`, with the graph supplied as data
(its construction from file contents is tree-sitter work outside the model):
foveal is the focus list restricted to discovered files, peripheral is the
depth-bounded expansion. -/
def computeSets (defines references : Graph.SymMap)
    (allFiles focus : List String) (depth : Nat) : List String × List String :=
  let foveal := (focus.filter (fun f => f ∈ allFiles)).dedup
  let peripheral :=
    collectPeripheralLoop defines references foveal allFiles depth foveal []
  (foveal, peripheral)

end Pack

namespace Stage

/-- A repository-relative path as its list of normal components. -/
abbrev FsPath := List String

/-- A file tree as an association list from relative paths to contents. -/
abbrev FsTree := List (FsPath × String)

/-- `PRESERVED_DIRS` from `src/stage/sync.rs`. -/
def PRESERVED_DIRS : List String :=
  [".git", ".slopchop", "target", "node_modules", ".vscode", ".idea",
   "__pycache__", ".venv", "venv"]

/-- `PRESERVED_FILES` from `src/stage/sync.rs`. -/
def PRESERVED_FILES : List String :=
  [".env", ".env.local", ".env.production"]

/-- `should_preserve` from `src/stage/sync.rs`: any component is a preserved
directory, or the file name is a preserved file. -/
def shouldPreserve (p : FsPath) : Bool :=
  p.any (fun c => c ∈ PRESERVED_DIRS) ||
    (match p.getLast? with
     | some f => f ∈ PRESERVED_FILES
     | none => false)

/-- First-match lookup in a file tree. -/
def lookupFile : FsTree → FsPath → Option String
  | [], _ => none
  | e :: rest, p => if e.1 = p then some e.2 else lookupFile rest p

/-- Overwrite-or-create, modelling `copy_file_with_parents` onto the tree. -/
def upsertFile (fs : FsTree) (p : FsPath) (c : String) : FsTree :=
  if fs.any (fun e => e.1 = p) then
    fs.map (fun e => if e.1 = p then (p, c) else e)
  else fs ++ [(p, c)]

/-- File deletion, modelling `fs::remove_file` on the tree. -/
def removeFile (fs : FsTree) (p : FsPath) : FsTree :=
  fs.filter (fun e => e.1 ≠ p)

/-- `collect_relative_paths` from `src/stage/sync.rs`: every file path of the
tree except preserved ones. -/
def collectRelativePaths (fs : FsTree) : List FsPath :=
  (fs.filter (fun e => !shouldPreserve e.1)).map (fun e => e.1)

/-- Phase 2 of `mirror_stage_to_workspace`: copy every collected stage file
into the workspace. -/
def copyPhase (stage : FsTree) (stagePaths : List FsPath) (ws : FsTree) : FsTree :=
  stagePaths.foldl (fun acc p =>
    match lookupFile stage p with
    | some c => upsertFile acc p c
    | none => acc) ws

/-- Phase 3 of `mirror_stage_to_workspace`: delete workspace files that are
not in the stage, skipping preserved paths. -/
def deletePhase (stagePaths wsPaths : List FsPath) (ws : FsTree) : FsTree :=
  wsPaths.foldl (fun acc p =>
    if p ∈ stagePaths then acc
    else if shouldPreserve p then acc
    else removeFile acc p) ws

/-- `mirror_stage_to_workspace` from `src/stage/sync.rs` on file trees (the
empty-directory cleanup of phase 4 has no effect on a tree of files). -/
def mirrorStageToWorkspace (stage ws : FsTree) : FsTree :=
  let stagePaths := collectRelativePaths stage
  let ws1 := copyPhase stage stagePaths ws
  let wsPaths := collectRelativePaths ws1
  deletePhase stagePaths wsPaths ws1

end Stage

namespace Apply

theorem mem_checkContent {ext : ExtractedFiles} {p : String} {c : FileContent}
    {msg : String} (hmem : (p, c) ∈ ext)
    (hmsg : msg ∈ validateSingleFile p c.content) : msg ∈ checkContent ext := by
  unfold checkContent
  rw [List.mem_flatten]
  exact ⟨validateSingleFile p c.content, List.mem_map.mpr ⟨(p, c), hmem, rfl⟩, hmsg⟩

theorem validate_eq_vf_of_errors {m : Manifest} {ext : ExtractedFiles}
    (h : checkContent ext ≠ []) :
    validate m ext = .ValidationFailure (checkContent ext) (checkMissing m ext)
      (formatAiRejection (checkMissing m ext) (checkContent ext)) := by
  unfold validate
  rw [if_pos]
  rw [Bool.or_eq_true]
  right
  simpa using h

theorem validate_eq_vf_of_missing {m : Manifest} {ext : ExtractedFiles}
    (h : checkMissing m ext ≠ []) :
    validate m ext = .ValidationFailure (checkContent ext) (checkMissing m ext)
      (formatAiRejection (checkMissing m ext) (checkContent ext)) := by
  unfold validate
  rw [if_pos]
  rw [Bool.or_eq_true]
  left
  simpa using h

/-- C9 the leading guard of `process_input` turns a payload that is empty
after trimming into `ParseError("Input is empty")` and leaves the filesystem
state untouched, whatever the rest of the pipeline would do. -/
theorem processInput_empty_input {σ : Type} (rest : σ → ApplyOutcome × σ)
    (content : String) (fs : σ) (h : isBlankStr content = true) :
    processInput rest content fs = (.ParseError "Input is empty", fs) := by
  unfold processInput
  rw [if_pos h]

/-- Witness: the empty payload against an arbitrary continuation over a
numeric filesystem state. -/
theorem processInput_empty_input_witness :
    processInput (fun n => (.WriteError "boom", n + 1)) "" (0 : Nat) =
      (.ParseError "Input is empty", 0) :=
  processInput_empty_input (fun n => (.WriteError "boom", n + 1)) "" 0 (by decide)

/-- C4 (amended) every non-Delete manifest entry without a file block is
listed in the missing list of a ValidationFailure outcome; when there are no
file blocks at all, the missing list is exactly the non-Delete entries. -/
theorem validate_missing_entries (m : Manifest) (ext : ExtractedFiles)
    (entry : ManifestEntry) (hmem : entry ∈ m)
    (hop : entry.operation ≠ Operation.Delete)
    (hnk : containsKey ext entry.path = false) :
    ∃ errs missing ai, validate m ext = .ValidationFailure errs missing ai ∧
      entry.path ∈ missing ∧
      (ext = [] →
        missing = (m.filter (fun x => x.operation ≠ Operation.Delete)).map
          (fun x => x.path)) := by
  have hpath : entry.path ∈ checkMissing m ext := by
    unfold checkMissing
    refine List.mem_map.mpr ⟨entry, List.mem_filter.mpr ⟨hmem, ?_⟩, rfl⟩
    simp [hop, hnk]
  have hne : checkMissing m ext ≠ [] := List.ne_nil_of_mem hpath
  refine ⟨checkContent ext, checkMissing m ext, _,
    validate_eq_vf_of_missing hne, hpath, ?_⟩
  intro hext
  subst hext
  unfold checkMissing
  congr 1
  apply List.filter_congr
  intro x _
  simp [containsKey]

/-- Witness for the missing-entry theorem: a one-entry Update manifest with
no file blocks. -/
theorem validate_missing_entries_witness :
    ∃ errs missing ai,
      validate [⟨"a.txt", Operation.Update⟩] [] =
        ApplyOutcome.ValidationFailure errs missing ai ∧
      "a.txt" ∈ missing ∧
      (([] : ExtractedFiles) = [] →
        missing = (([⟨"a.txt", Operation.Update⟩] : Manifest).filter
          (fun x => x.operation ≠ Operation.Delete)).map (fun x => x.path)) :=
  validate_missing_entries [⟨"a.txt", Operation.Update⟩] []
    ⟨"a.txt", Operation.Update⟩ (by decide) (by decide) (by decide)

/-- C4 counterexample: a payload whose manifest holds only a Delete entry and
which has no FILE blocks validates to Success, not ValidationFailure, so the
claim's "payload with a manifest and no FILE blocks yields ValidationFailure"
fails as stated. -/
theorem all_delete_manifest_success :
    validate [⟨"old.txt", Operation.Delete⟩] [] = .Success [] [] true := by
  decide

/-- C1 (amended) path-safety failure is per file block: a block whose path
fails `check_path_safety` contributes exactly its security error (its content
checks are skipped), and the overall outcome is a ValidationFailure whose
error list contains that security error; content errors of other blocks may
sit alongside it. -/
theorem validate_security_per_file (m : Manifest) (ext : ExtractedFiles)
    (p : String) (c : FileContent) (e : String) (hmem : (p, c) ∈ ext)
    (herr : checkPathSafety p = .error e) :
    validateSingleFile p c.content = [p ++ ": Security Violation - " ++ e] ∧
    ∃ errs missing ai, validate m ext = .ValidationFailure errs missing ai ∧
      (p ++ ": Security Violation - " ++ e) ∈ errs := by
  have hsingle : validateSingleFile p c.content =
      [p ++ ": Security Violation - " ++ e] := by
    unfold validateSingleFile
    rw [herr]
  have hmsg : (p ++ ": Security Violation - " ++ e) ∈ checkContent ext :=
    mem_checkContent hmem (by rw [hsingle]; exact List.mem_singleton.mpr rfl)
  exact ⟨hsingle, checkContent ext, checkMissing m ext, _,
    validate_eq_vf_of_errors (List.ne_nil_of_mem hmsg), hmsg⟩

/-- Witness for the per-file security theorem: one traversal path among the
blocks. -/
theorem validate_security_per_file_witness :
    validateSingleFile "../evil.txt" "x" =
      ["../evil.txt: Security Violation - Directory traversal (../) is forbidden"] ∧
    ∃ errs missing ai,
      validate [] [("../evil.txt", ⟨"x", 1⟩)] =
        ApplyOutcome.ValidationFailure errs missing ai ∧
      "../evil.txt: Security Violation - Directory traversal (../) is forbidden" ∈
        errs :=
  validate_security_per_file [] [("../evil.txt", ⟨"x", 1⟩)] "../evil.txt"
    ⟨"x", 1⟩ "Directory traversal (../) is forbidden" (by simp) rfl

/-- C1 counterexample: a payload with one unsafe path and one empty safe file
reports the content error of the safe file next to the security error, so the
outcome does not carry the security errors only. -/
theorem validate_security_not_payload_fail_fast :
    errorsOf (validate [] [("../evil.txt", ⟨"x", 1⟩), ("ok.txt", ⟨"", 1⟩)]) =
      ["../evil.txt: Security Violation - Directory traversal (../) is forbidden",
       "ok.txt: File is empty"] ∧
    "ok.txt: File is empty" ∈
      errorsOf (validate [] [("../evil.txt", ⟨"x", 1⟩), ("ok.txt", ⟨"", 1⟩)]) := by
  have h : errorsOf (validate [] [("../evil.txt", ⟨"x", 1⟩), ("ok.txt", ⟨"", 1⟩)]) =
      ["../evil.txt: Security Violation - Directory traversal (../) is forbidden",
       "ok.txt: File is empty"] := rfl
  exact ⟨h, h ▸ (by simp)⟩

/-- C2 (amended) path validation rejects exactly: absolute paths, paths with
a `..` component, paths starting with the string `.git` or containing
`/.git`, and paths ending with (or containing after a slash) one of the
dangerous names; hidden-file components are not otherwise rejected.
`.github/config.yml` is still rejected, because it starts with `.git`. -/
theorem checkPathSafety_characterization :
    (∀ p : String, checkPathSafety p = .ok () ↔ ¬rejectsSpec p) ∧
    errorsOf (validate [] [(".github/config.yml", ⟨"x", 1⟩)]) =
      [".github/config.yml: Security Violation - Modifying .git internals is forbidden"] := by
  constructor
  · intro p
    unfold checkPathSafety rejectsSpec
    split_ifs with h1 h2 h3
    · simp [h1]
    · simp [h1, h2]
    · simp [h3]
    · rcases hfind : DANGEROUS_PATHS.find?
          (fun d => strEnds p d || strContains p ("/" ++ d)) with _ | d
      · have hall := List.find?_eq_none.mp hfind
        constructor
        · intro _
          rintro (hc | hc | hc | ⟨d, hdm, hdp⟩)
          · exact h1 hc
          · exact h2 hc
          · exact h3 hc
          · exact absurd hdp (by simpa using hall d hdm)
        · intro _
          rfl
      · have hd := List.find?_some hfind
        have hdm := List.mem_of_find?_eq_some hfind
        constructor
        · intro hcontra
          simp at hcontra
        · intro hneg
          exact absurd (Or.inr (Or.inr (Or.inr ⟨d, hdm, hd⟩))) hneg
  · decide

/-- C2 counterexample: `.hidden/file.txt` contains a hidden component, yet
path safety accepts it and the whole payload validates to Success. -/
theorem hidden_component_accepted :
    ((splitOnChar '/' ".hidden/file.txt".toList).any
      (fun comp => listPrefixOf ['.'] comp && comp ≠ ['.'] && comp ≠ ['.', '.'])) = true ∧
    checkPathSafety ".hidden/file.txt" = .ok () ∧
    validate [] [(".hidden/file.txt", ⟨"let x = 1;", 1⟩)] =
      .Success [".hidden/file.txt"] [] true :=
  ⟨by decide, rfl, rfl⟩

end Apply

namespace Analysis

theorem law_of_atomicity {t mx : Nat} {ig : Bool} {v : Violation}
    (h : v ∈ atomicityCheck t mx ig) : v.law = "LAW OF ATOMICITY" := by
  unfold atomicityCheck at h
  split at h
  · simp only [List.mem_singleton] at h
    subst h
    rfl
  · simp at h

theorem law_of_naming {caps : List (String × Nat)} {cfg : RuleConfig}
    {v : Violation} (h : v ∈ processNamingMatch caps cfg) :
    v.law = "LAW OF CONCISENESS" := by
  unfold processNamingMatch at h
  rw [List.mem_flatten] at h
  obtain ⟨l, hl, hv⟩ := h
  rw [List.mem_map] at hl
  obtain ⟨cap, _, rfl⟩ := hl
  split at hv
  · simp only [List.mem_singleton] at hv
    subst hv
    rfl
  · simp at hv

theorem law_of_checkNaming {ign : List String} {fname : String}
    {caps : List (String × Nat)} {cfg : RuleConfig} {v : Violation}
    (h : v ∈ checkNaming ign fname caps cfg) : v.law = "LAW OF CONCISENESS" := by
  unfold checkNaming at h
  split at h
  · simp at h
  · exact law_of_naming h

theorem law_of_args {f : FuncMeasure} {cfg : RuleConfig} {v : Violation}
    (h : v ∈ checkArgumentCount f cfg) : v.law = "LAW OF COMPLEXITY" := by
  unfold checkArgumentCount at h
  split at h
  · simp only [List.mem_singleton] at h
    subst h
    rfl
  · simp at h

theorem law_of_depth {r d : Nat} {cfg : RuleConfig} {v : Violation}
    (h : v ∈ checkNestingDepthV r d cfg) : v.law = "LAW OF COMPLEXITY" := by
  unfold checkNestingDepthV at h
  split at h
  · simp only [List.mem_singleton] at h
    subst h
    rfl
  · simp at h

theorem law_of_cyclo {r c : Nat} {cfg : RuleConfig} {v : Violation}
    (h : v ∈ checkCyclomaticV r c cfg) : v.law = "LAW OF COMPLEXITY" := by
  unfold checkCyclomaticV at h
  split at h
  · simp only [List.mem_singleton] at h
    subst h
    rfl
  · simp at h

theorem law_of_func {f : FuncMeasure} {cfg : RuleConfig} {v : Violation}
    (h : v ∈ analyzeFunctionNode f cfg) : v.law = "LAW OF COMPLEXITY" := by
  unfold analyzeFunctionNode at h
  rw [List.mem_append] at h
  rcases h with h | h
  · exact law_of_args h
  · rcases hb : f.body with _ | bd
    · rw [hb] at h
      simp at h
    · rw [hb, List.mem_append] at h
      rcases h with h | h
      · exact law_of_depth h
      · exact law_of_cyclo h

theorem law_of_banned_add {t : String} {r : Nat} {v : Violation}
    (h : v ∈ addBannedViolation t r) : v.law = "LAW OF PARANOIA" := by
  unfold addBannedViolation at h
  split at h
  · simp only [List.mem_singleton] at h
    subst h
    rfl
  · split at h
    · simp only [List.mem_singleton] at h
      subst h
      rfl
    · simp at h

theorem law_of_checkBanned {fname : String}
    {caps : List (String × String × Nat)} {v : Violation}
    (h : v ∈ checkBanned fname caps) : v.law = "LAW OF PARANOIA" := by
  simp only [checkBanned] at h
  split at h
  · simp at h
  · rw [List.mem_flatten] at h
    obtain ⟨l, hl, hv⟩ := h
    rw [List.mem_map] at hl
    obtain ⟨cap, _, rfl⟩ := hl
    split at hv
    · exact law_of_banned_add hv
    · simp at hv

theorem law_of_cohesion {s : ScopeMeasure} {v : Violation}
    (h : v ∈ checkScopeCohesion s) : v.law = "DEEP ANALYSIS" := by
  unfold checkScopeCohesion at h
  split at h
  · simp only [List.mem_singleton] at h
    subst h
    rfl
  · simp at h

theorem law_of_coupling {s : ScopeMeasure} {v : Violation}
    (h : v ∈ checkScopeCoupling s) : v.law = "DEEP ANALYSIS" := by
  unfold checkScopeCoupling at h
  rw [List.mem_append] at h
  rcases h with h | h <;>
    · split at h
      · simp only [List.mem_singleton] at h
        subst h
        rfl
      · simp at h

/-- C5 (amended) every violation any analysis pass can emit carries a law tag
in the closed set \x7bLAW OF ATOMICITY, LAW OF CONCISENESS, LAW OF COMPLEXITY,
LAW OF PARANOIA, DEEP ANALYSIS\x7d. -/
theorem analyzer_law_closed_set (cfg : RuleConfig) (m : FileMeasure)
    (v : Violation) (hv : v ∈ analyzeViolations cfg m) :
    v.law ∈ emittedLawSet := by
  unfold analyzeViolations at hv
  simp only [List.mem_append] at hv
  rcases hv with ((((h | h) | h) | h) | h)
  · rw [law_of_atomicity h]
    decide
  · rw [law_of_checkNaming h]
    decide
  · rw [List.mem_flatten] at h
    obtain ⟨l, hl, hv⟩ := h
    rw [List.mem_map] at hl
    obtain ⟨f, _, rfl⟩ := hl
    rw [law_of_func hv]
    decide
  · rw [law_of_checkBanned h]
    decide
  · rw [List.mem_flatten] at h
    obtain ⟨l, hl, hv⟩ := h
    rw [List.mem_map] at hl
    obtain ⟨s, _, rfl⟩ := hl
    rw [List.mem_append] at hv
    rcases hv with hv | hv
    · rw [law_of_cohesion hv]
      decide
    · rw [law_of_coupling hv]
      decide

/-- Witness for the closed-law-set theorem: a file over the token limit
yields an ATOMICITY violation whose law lies in the emitted set. -/
theorem analyzer_law_closed_set_witness :
    (⟨1, "File size is 10 tokens (Limit: 5)", "LAW OF ATOMICITY"⟩ : Violation) ∈
      analyzeViolations ⟨5, 5, 5, 5, 5⟩ ⟨10, false, "f.rs", [], [], [], [], []⟩ ∧
    ("LAW OF ATOMICITY" : String) ∈ emittedLawSet :=
  ⟨by decide,
   analyzer_law_closed_set ⟨5, 5, 5, 5, 5⟩ ⟨10, false, "f.rs", [], [], [], [], []⟩
     ⟨1, "File size is 10 tokens (Limit: 5)", "LAW OF ATOMICITY"⟩ (by decide)⟩

/-- C5 counterexample: a long function name makes the analyzer emit a
violation whose law tag is `LAW OF CONCISENESS`, which lies outside the
closed set the spec asserts. -/
theorem conciseness_outside_spec_set :
    ((analyzeViolations ⟨100, 10, 5, 5, 4⟩
        ⟨10, false, "src/user.rs", [], [("get_user_by_id_from_db", 3)], [], [], []⟩).map
      (fun v => v.law) = ["LAW OF CONCISENESS"]) ∧
    "LAW OF CONCISENESS" ∉ specLawSet := by
  decide

theorem camel_foldl (l : List Char) :
    ∀ w : Nat, l.foldl (fun w c => if c.isUpper then w + 1 else w) w =
      w + l.countP (fun c => c.isUpper) := by
  induction l with
  | nil => intro w; simp
  | cons c l ih =>
    intro w
    simp only [List.foldl_cons, List.countP_cons]
    by_cases hc : c.isUpper
    · rw [if_pos hc, ih]
      simp [hc]
      omega
    · rw [if_neg hc, ih]
      simp [hc]

/-- C6 (amended) the word counter sums per underscore-part counts: an
all-caps part counts one, a mixed-case part counts one for its first
character plus one per uppercase letter among the rest — so consecutive
uppercase letters each count, and `parseHTTPResponse` counts 6 words. -/
theorem countWords_characterization :
    (∀ name, countWords name = wordCountAmended name) ∧
    countWords "parseHTTPResponse" = 6 := by
  constructor
  · intro name
    unfold countWords wordCountAmended
    generalize splitOnChar '_' name.toList = parts
    have key : ∀ (ps : List (List Char)) (t : Nat),
        ps.foldl (fun total part =>
          if part = [] then total
          else if isAllCaps part then total + 1
          else total + countCamelParts part) t =
        t + (ps.map (fun part =>
          match part with
          | [] => 0
          | _ :: rest => if isAllCaps part then 1
            else 1 + rest.countP (fun c => c.isUpper))).sum := by
      intro ps
      induction ps with
      | nil => intro t; simp
      | cons p rest ih =>
        intro t
        simp only [List.foldl_cons, List.map_cons, List.sum_cons]
        rcases p with _ | ⟨c, cs⟩
        · rw [if_pos rfl, ih]
          simp
        · rw [if_neg (by simp)]
          dsimp only
          by_cases hcaps : isAllCaps (c :: cs)
          · rw [if_pos hcaps, ih, if_pos hcaps]
            omega
          · rw [if_neg hcaps, ih, if_neg hcaps]
            unfold countCamelParts
            dsimp only
            rw [camel_foldl]
            omega
    rw [key]
    simp
  · decide

/-- C6 counterexample: the identifier shape the claim says counts 3 words
counts 6 under the implemented counter. -/
theorem countWords_not_acronym_collapsing :
    countWords "parseHTTPResponse" = 6 ∧ countWords "parseHTTPResponse" ≠ 3 := by
  decide

end Analysis

namespace Heuristics

/-- C7 (amended) for unknown files the keep decision is the entropy gate
alone: a readable file is kept exactly when its entropy lies in
[3.5, 5.5], independent of the build-marker flag; unreadable files are
dropped and known-code files are always kept. -/
theorem shouldKeep_entropy_only :
    (∀ (e : ℚ) (b : Bool),
      shouldKeep false (some e) b =
        decide (MIN_TEXT_ENTROPY ≤ e ∧ e ≤ MAX_TEXT_ENTROPY)) ∧
    (∀ b : Bool, shouldKeep false none b = false) ∧
    (∀ (eo : Option ℚ) (b : Bool), shouldKeep true eo b = true) := by
  refine ⟨fun e b => ?_, fun b => rfl, fun eo b => rfl⟩
  unfold shouldKeep
  by_cases h : MIN_TEXT_ENTROPY ≤ e ∧ e ≤ MAX_TEXT_ENTROPY
  · cases b <;> simp [h]
  · simp [h]

/-- C7 counterexample: an unknown file with in-range entropy and no build
marker is kept by the code, though the claim's rule drops it. -/
theorem shouldKeep_ignores_markers :
    shouldKeep false (some 4) false = true ∧ keepPerClaim 4 false = false := by
  constructor
  · have h : MIN_TEXT_ENTROPY ≤ (4 : ℚ) ∧ (4 : ℚ) ≤ MAX_TEXT_ENTROPY := by
      unfold MIN_TEXT_ENTROPY MAX_TEXT_ENTROPY
      norm_num
    simp [shouldKeep, h]
  · simp [keepPerClaim]

end Heuristics

namespace Graph

theorem mem_addFiles {coll : List String} {a x : String}
    (h : x ∈ addFiles coll a) : x ≠ a := by
  unfold addFiles at h
  rw [List.mem_filter] at h
  simpa using h.2

theorem mem_relatedDependent {d r : SymMap} {a x : String}
    (h : x ∈ relatedDependent d r a) : x ≠ a := by
  unfold relatedDependent at h
  rw [List.mem_flatten] at h
  obtain ⟨l, hl, hx⟩ := h
  rw [List.mem_map] at hl
  obtain ⟨sd, _, rfl⟩ := hl
  rcases hfind : r.find? (fun e => e.1 = sd.1) with _ | e
  · rw [hfind] at hx
    simp at hx
  · rw [hfind] at hx
    exact mem_addFiles hx

theorem mem_relatedDependency {d r : SymMap} {a x : String}
    (h : x ∈ relatedDependency d r a) : x ≠ a := by
  unfold relatedDependency at h
  rw [List.mem_flatten] at h
  obtain ⟨l, hl, hx⟩ := h
  rw [List.mem_map] at hl
  obtain ⟨sr, _, rfl⟩ := hl
  rcases hfind : d.find? (fun e => e.1 = sr.1) with _ | e
  · rw [hfind] at hx
    simp at hx
  · rw [hfind] at hx
    exact mem_addFiles hx

theorem mem_insertSorted {y x : String} {l : List String} :
    x ∈ insertSorted y l ↔ x = y ∨ x ∈ l := by
  induction l with
  | nil => simp [insertSorted]
  | cons z zs ih =>
    unfold insertSorted
    split
    · simp [or_left_comm, or_comm]
    · rw [List.mem_cons, ih, List.mem_cons]
      tauto

theorem mem_sortStrings {x : String} {l : List String} :
    x ∈ sortStrings l ↔ x ∈ l := by
  induction l with
  | nil => simp [sortStrings]
  | cons z zs ih =>
    unfold sortStrings at ih ⊢
    rw [List.foldr_cons, mem_insertSorted, ih, List.mem_cons]

/-- C10 the three neighborhood queries never report the anchor itself: a file
is in none of its own `neighbors`, `dependencies`, or `dependents` sets, for
any defines/references maps the graph was built with. -/
theorem queries_exclude_anchor (defines references : SymMap) (f : String) :
    f ∉ neighbors defines references f ∧
    f ∉ dependencies defines references f ∧
    f ∉ dependents defines references f := by
  refine ⟨fun h => ?_, fun h => ?_, fun h => ?_⟩
  · unfold neighbors at h
    rw [List.mem_dedup, List.mem_append] at h
    rcases h with h | h
    · exact mem_relatedDependent h rfl
    · exact mem_relatedDependency h rfl
  · unfold dependencies at h
    rw [mem_sortStrings, List.mem_dedup] at h
    exact mem_relatedDependency h rfl
  · unfold dependents at h
    rw [mem_sortStrings, List.mem_dedup] at h
    exact mem_relatedDependent h rfl

/-- Witness for the anchor-exclusion theorem at a concrete two-file graph. -/
theorem queries_exclude_anchor_witness :
    "a.rs" ∉ neighbors [("f", ["b.rs"])] [("f", ["a.rs"])] "a.rs" ∧
    "a.rs" ∉ dependencies [("f", ["b.rs"])] [("f", ["a.rs"])] "a.rs" ∧
    "a.rs" ∉ dependents [("f", ["b.rs"])] [("f", ["a.rs"])] "a.rs" :=
  queries_exclude_anchor [("f", ["b.rs"])] [("f", ["a.rs"])] "a.rs"

end Graph

namespace Pack

theorem shouldInclude_spec {p : String} {fov per all : List String}
    (h : shouldInclude p fov per all = true) : p ∉ fov ∧ p ∈ all := by
  unfold shouldInclude at h
  simp only [Bool.and_eq_true, decide_eq_true_eq] at h
  exact ⟨h.1.1, h.2⟩

theorem mem_expandFrontier {d r : Graph.SymMap} {fr fov per all : List String}
    {x : String} (h : x ∈ expandFrontier d r fr fov per all) :
    x ∉ fov ∧ x ∈ all := by
  unfold expandFrontier at h
  rw [List.mem_dedup, List.mem_flatten] at h
  obtain ⟨l, hl, hx⟩ := h
  rw [List.mem_map] at hl
  obtain ⟨a, _, rfl⟩ := hl
  rw [List.mem_filter] at hx
  exact shouldInclude_spec hx.2

theorem collectPeripheral_inv {d r : Graph.SymMap} {fov all : List String} :
    ∀ (depth : Nat) (frontier periph : List String),
      (∀ x ∈ periph, x ∉ fov ∧ x ∈ all) →
      ∀ x ∈ collectPeripheralLoop d r fov all depth frontier periph,
        x ∉ fov ∧ x ∈ all := by
  intro depth
  induction depth with
  | zero => exact fun frontier periph hp x hx => hp x hx
  | succ n ih =>
    intro frontier periph hp x hx
    refine ih _ _ ?_ x hx
    intro y hy
    rw [List.mem_append] at hy
    rcases hy with hy | hy
    · exact hp y hy
    · exact mem_expandFrontier hy

/-- C8 for every graph, discovered file list, focus list and depth of at
least one, the foveal and peripheral sets computed by the packer are both
subsets of the discovered files and are disjoint. -/
theorem computeSets_disjoint_subsets (defines references : Graph.SymMap)
    (allFiles focus : List String) (depth : Nat) (hd : 1 ≤ depth) :
    (∀ x ∈ (computeSets defines references allFiles focus depth).1, x ∈ allFiles) ∧
    (∀ x ∈ (computeSets defines references allFiles focus depth).2, x ∈ allFiles) ∧
    (∀ x ∈ (computeSets defines references allFiles focus depth).1,
      x ∉ (computeSets defines references allFiles focus depth).2) := by
  refine ⟨?_, ?_, ?_⟩
  · intro x hx
    rw [show (computeSets defines references allFiles focus depth).1 =
        (focus.filter (fun f => f ∈ allFiles)).dedup from rfl] at hx
    rw [List.mem_dedup, List.mem_filter] at hx
    simpa using hx.2
  · intro x hx
    exact (collectPeripheral_inv depth _ _
      (fun y hy => ((List.not_mem_nil y) hy).elim) x hx).2
  · intro x hx hx2
    have hinv := collectPeripheral_inv depth _ _
      (fun y hy => ((List.not_mem_nil y) hy).elim) x hx2
    exact hinv.1 hx

/-- Witness for the foveal/peripheral theorem at a two-file graph of depth
one. -/
theorem computeSets_disjoint_subsets_witness :
    (∀ x ∈ (computeSets [("s", ["a.rs", "b.rs"])] [("s", ["b.rs"])]
        ["a.rs", "b.rs"] ["a.rs"] 1).1, x ∈ ["a.rs", "b.rs"]) ∧
    (∀ x ∈ (computeSets [("s", ["a.rs", "b.rs"])] [("s", ["b.rs"])]
        ["a.rs", "b.rs"] ["a.rs"] 1).2, x ∈ ["a.rs", "b.rs"]) ∧
    (∀ x ∈ (computeSets [("s", ["a.rs", "b.rs"])] [("s", ["b.rs"])]
        ["a.rs", "b.rs"] ["a.rs"] 1).1,
      x ∉ (computeSets [("s", ["a.rs", "b.rs"])] [("s", ["b.rs"])]
        ["a.rs", "b.rs"] ["a.rs"] 1).2) :=
  computeSets_disjoint_subsets [("s", ["a.rs", "b.rs"])] [("s", ["b.rs"])]
    ["a.rs", "b.rs"] ["a.rs"] 1 (by decide)

end Pack

namespace Stage

theorem lookup_append (fs gs : FsTree) (p : FsPath) :
    lookupFile (fs ++ gs) p =
      match lookupFile fs p with
      | some c => some c
      | none => lookupFile gs p := by
  induction fs with
  | nil => simp [lookupFile]
  | cons e rest ih =>
    by_cases he : e.1 = p
    · simp [lookupFile, he]
    · simp [lookupFile, he, ih]

theorem lookup_eq_none_of_not_any (fs : FsTree) (p : FsPath)
    (h : fs.any (fun e => e.1 = p) = false) : lookupFile fs p = none := by
  induction fs with
  | nil => rfl
  | cons e rest ih =>
    simp only [List.any_cons, Bool.or_eq_false_iff, decide_eq_false_iff_not] at h
    simp [lookupFile, h.1, ih (by simpa using h.2)]

theorem lookup_map_self (fs : FsTree) (p : FsPath) (c : String)
    (h : fs.any (fun e => e.1 = p) = true) :
    lookupFile (fs.map (fun e => if e.1 = p then (p, c) else e)) p = some c := by
  induction fs with
  | nil => simp at h
  | cons e rest ih =>
    simp only [List.any_cons, Bool.or_eq_true, decide_eq_true_eq] at h
    by_cases he : e.1 = p
    · simp [lookupFile, he]
    · have hr : rest.any (fun e => e.1 = p) = true := by
        rcases h with h | h
        · exact absurd h he
        · exact h
      simp [lookupFile, he, ih hr]

theorem lookup_map_other (fs : FsTree) (q p : FsPath) (c : String)
    (hne : p ≠ q) :
    lookupFile (fs.map (fun e => if e.1 = q then (q, c) else e)) p =
      lookupFile fs p := by
  induction fs with
  | nil => rfl
  | cons e rest ih =>
    rw [List.map_cons]
    by_cases he : e.1 = q
    · have he2 : ¬(e.1 = p) := by
        rw [he]
        exact Ne.symm hne
      rw [if_pos he]
      simp only [lookupFile]
      rw [if_neg (show ¬((q, c).1 = p) from Ne.symm hne), if_neg he2]
      exact ih
    · rw [if_neg he]
      simp only [lookupFile]
      by_cases hep : e.1 = p
      · rw [if_pos hep, if_pos hep]
      · rw [if_neg hep, if_neg hep]
        exact ih

theorem lookup_upsert_self (fs : FsTree) (p : FsPath) (c : String) :
    lookupFile (upsertFile fs p c) p = some c := by
  unfold upsertFile
  split
  · exact lookup_map_self fs p c (by assumption)
  · rw [lookup_append]
    rw [lookup_eq_none_of_not_any fs p (Bool.eq_false_iff.mpr (by assumption))]
    simp [lookupFile]

theorem lookup_upsert_other (fs : FsTree) (q : FsPath) (c : String)
    (p : FsPath) (hne : p ≠ q) :
    lookupFile (upsertFile fs q c) p = lookupFile fs p := by
  unfold upsertFile
  split
  · exact lookup_map_other fs q p c hne
  · rw [lookup_append]
    rcases hl : lookupFile fs p with _ | c'
    · simp only [lookupFile]
      rw [if_neg (show ¬((q, c).1 = p) from Ne.symm hne)]
    · rfl

theorem lookup_remove_self (fs : FsTree) (p : FsPath) :
    lookupFile (removeFile fs p) p = none := by
  induction fs with
  | nil => rfl
  | cons e rest ih =>
    simp only [removeFile, List.filter_cons] at ih ⊢
    by_cases he : e.1 = p
    · rw [if_neg (by simp [he])]
      exact ih
    · rw [if_pos (by simp [he])]
      simp only [lookupFile]
      rw [if_neg he]
      exact ih

theorem lookup_remove_other (fs : FsTree) (q p : FsPath) (hne : p ≠ q) :
    lookupFile (removeFile fs q) p = lookupFile fs p := by
  induction fs with
  | nil => rfl
  | cons e rest ih =>
    simp only [removeFile, List.filter_cons] at ih ⊢
    by_cases he : e.1 = q
    · have he2 : ¬(e.1 = p) := by
        rw [he]
        exact Ne.symm hne
      rw [if_neg (by simp [he])]
      rw [ih]
      simp only [lookupFile]
      rw [if_neg he2]
    · rw [if_pos (by simp [he])]
      simp only [lookupFile]
      by_cases hep : e.1 = p
      · rw [if_pos hep, if_pos hep]
      · rw [if_neg hep, if_neg hep]
        exact ih

theorem not_preserved_of_mem_collect {fs : FsTree} {p : FsPath}
    (h : p ∈ collectRelativePaths fs) : shouldPreserve p = false := by
  unfold collectRelativePaths at h
  rw [List.mem_map] at h
  obtain ⟨e, he, rfl⟩ := h
  rw [List.mem_filter] at he
  simpa using he.2

theorem isSome_of_mem_collect {fs : FsTree} {p : FsPath}
    (h : p ∈ collectRelativePaths fs) : (lookupFile fs p).isSome = true := by
  unfold collectRelativePaths at h
  rw [List.mem_map] at h
  obtain ⟨e, he, rfl⟩ := h
  rw [List.mem_filter] at he
  have key : ∀ fs : FsTree, e ∈ fs → (lookupFile fs e.1).isSome = true := by
    intro fs
    induction fs with
    | nil => simp
    | cons g rest ih =>
      intro hmem
      rcases List.mem_cons.mp hmem with hg | hmem'
      · subst hg
        simp [lookupFile]
      · by_cases hg : g.1 = e.1
        · simp [lookupFile, hg]
        · simp [lookupFile, hg, ih hmem']
  exact key fs he.1

theorem mem_collect_of_lookup {fs : FsTree} {p : FsPath} {c : String}
    (hl : lookupFile fs p = some c) (hp : shouldPreserve p = false) :
    p ∈ collectRelativePaths fs := by
  induction fs with
  | nil => simp [lookupFile] at hl
  | cons e rest ih =>
    by_cases he : e.1 = p
    · unfold collectRelativePaths
      rw [List.mem_map]
      exact ⟨e, List.mem_filter.mpr ⟨List.mem_cons_self e rest,
        by simp [he, hp]⟩, he⟩
    · simp only [lookupFile, he, if_false] at hl
      have hrest := ih (by simpa [he] using hl)
      unfold collectRelativePaths at hrest ⊢
      rw [List.filter_cons]
      split
      · rw [List.map_cons]
        exact List.mem_cons_of_mem _ hrest
      · exact hrest

theorem copyPhase_not_mem (stage : FsTree) :
    ∀ (ps : List FsPath) (acc : FsTree) (p : FsPath), p ∉ ps →
      lookupFile (copyPhase stage ps acc) p = lookupFile acc p := by
  intro ps
  induction ps with
  | nil => intro acc p _; rfl
  | cons q rest ih =>
    intro acc p hp
    rw [List.mem_cons, not_or] at hp
    have step : ∀ acc' : FsTree,
        lookupFile (copyPhase stage rest acc') p = lookupFile acc' p :=
      fun acc' => ih acc' p hp.2
    rcases hl : lookupFile stage q with _ | c
    · have : copyPhase stage (q :: rest) acc = copyPhase stage rest acc := by
        unfold copyPhase
        rw [List.foldl_cons, hl]
      rw [this, step]
    · have : copyPhase stage (q :: rest) acc =
          copyPhase stage rest (upsertFile acc q c) := by
        unfold copyPhase
        rw [List.foldl_cons, hl]
      rw [this, step, lookup_upsert_other acc q c p hp.1]

theorem copyPhase_mem (stage : FsTree) :
    ∀ (ps : List FsPath) (acc : FsTree) (p : FsPath) (c : String),
      lookupFile stage p = some c → p ∈ ps →
      lookupFile (copyPhase stage ps acc) p = some c := by
  intro ps
  induction ps with
  | nil =>
    intro acc p c _ hmem
    simp at hmem
  | cons q rest ih =>
    intro acc p c hs hmem
    by_cases hpr : p ∈ rest
    · rcases hl : lookupFile stage q with _ | c'
      · have : copyPhase stage (q :: rest) acc = copyPhase stage rest acc := by
          unfold copyPhase
          rw [List.foldl_cons, hl]
        rw [this]
        exact ih acc p c hs hpr
      · have : copyPhase stage (q :: rest) acc =
            copyPhase stage rest (upsertFile acc q c') := by
          unfold copyPhase
          rw [List.foldl_cons, hl]
        rw [this]
        exact ih _ p c hs hpr
    · have hq : q = p := by
        rcases List.mem_cons.mp hmem with h | h
        · exact h.symm
        · exact absurd h hpr
      subst hq
      have : copyPhase stage (q :: rest) acc =
          copyPhase stage rest (upsertFile acc q c) := by
        unfold copyPhase
        rw [List.foldl_cons, hs]
      rw [this, copyPhase_not_mem stage rest _ q hpr, lookup_upsert_self]

theorem deletePhase_skip (sp : List FsPath) :
    ∀ (wps : List FsPath) (acc : FsTree) (p : FsPath),
      p ∈ sp ∨ shouldPreserve p = true →
      lookupFile (deletePhase sp wps acc) p = lookupFile acc p := by
  intro wps
  induction wps with
  | nil => intro acc p _; rfl
  | cons q rest ih =>
    intro acc p hp
    have hstep : ∀ acc' : FsTree,
        deletePhase sp (q :: rest) acc' = deletePhase sp rest
          (if q ∈ sp then acc'
           else if shouldPreserve q then acc'
           else removeFile acc' q) := by
      intro acc'
      unfold deletePhase
      rw [List.foldl_cons]
    rw [hstep, ih _ p hp]
    by_cases h1 : q ∈ sp
    · rw [if_pos h1]
    · rw [if_neg h1]
      by_cases h2 : shouldPreserve q = true
      · rw [if_pos h2]
      · rw [if_neg h2]
        by_cases hqp : q = p
        · subst hqp
          rcases hp with hp | hp
          · exact absurd hp h1
          · exact absurd hp h2
        · exact lookup_remove_other acc q p (fun h => hqp h.symm)

theorem deletePhase_none (sp : List FsPath) :
    ∀ (wps : List FsPath) (acc : FsTree) (p : FsPath),
      lookupFile acc p = none →
      lookupFile (deletePhase sp wps acc) p = none := by
  intro wps
  induction wps with
  | nil => intro acc p h; exact h
  | cons q rest ih =>
    intro acc p hnone
    have hstep : deletePhase sp (q :: rest) acc = deletePhase sp rest
        (if q ∈ sp then acc
         else if shouldPreserve q then acc
         else removeFile acc q) := by
      unfold deletePhase
      rw [List.foldl_cons]
    rw [hstep]
    refine ih _ p ?_
    by_cases h1 : q ∈ sp
    · rw [if_pos h1]
      exact hnone
    · rw [if_neg h1]
      by_cases h2 : shouldPreserve q = true
      · rw [if_pos h2]
        exact hnone
      · rw [if_neg h2]
        by_cases hqp : q = p
        · subst hqp
          exact lookup_remove_self acc q
        · rw [lookup_remove_other acc q p (fun h => hqp h.symm)]
          exact hnone

theorem deletePhase_removes (sp : List FsPath) :
    ∀ (wps : List FsPath) (acc : FsTree) (p : FsPath),
      p ∈ wps → p ∉ sp → shouldPreserve p = false →
      lookupFile (deletePhase sp wps acc) p = none := by
  intro wps
  induction wps with
  | nil =>
    intro acc p hmem
    simp at hmem
  | cons q rest ih =>
    intro acc p hmem hnsp hnpres
    have hstep : deletePhase sp (q :: rest) acc = deletePhase sp rest
        (if q ∈ sp then acc
         else if shouldPreserve q then acc
         else removeFile acc q) := by
      unfold deletePhase
      rw [List.foldl_cons]
    rw [hstep]
    by_cases hqp : q = p
    · subst hqp
      rw [if_neg hnsp, if_neg (by simp [hnpres])]
      exact deletePhase_none sp rest _ q (lookup_remove_self acc q)
    · have hmem' : p ∈ rest := by
        rcases List.mem_cons.mp hmem with h | h
        · exact absurd h.symm hqp
        · exact h
      exact ih _ p hmem' hnsp hnpres

/-- C3 (amended) the promotion sync mirrors the whole stage worktree, not
just recorded paths: after `mirror_stage_to_workspace`, every non-preserved
path carries exactly the stage's content (and is absent when the stage lacks
it), while preserved infrastructure paths keep their workspace state; the
stage state's write and delete sets play no role. -/
theorem mirror_pointwise (stage ws : FsTree) (p : FsPath) :
    lookupFile (mirrorStageToWorkspace stage ws) p =
      if shouldPreserve p = true then lookupFile ws p
      else lookupFile stage p := by
  simp only [mirrorStageToWorkspace]
  by_cases hp : shouldPreserve p = true
  · rw [if_pos hp]
    have hnsp : p ∉ collectRelativePaths stage := fun hm =>
      absurd hp (by simp [not_preserved_of_mem_collect hm])
    have h2 := deletePhase_skip (collectRelativePaths stage)
      (collectRelativePaths (copyPhase stage (collectRelativePaths stage) ws))
      (copyPhase stage (collectRelativePaths stage) ws) p (Or.inr hp)
    rw [h2]
    exact copyPhase_not_mem stage (collectRelativePaths stage) ws p hnsp
  · rw [if_neg hp]
    have hpres : shouldPreserve p = false := by
      revert hp
      cases shouldPreserve p <;> simp
    rcases hs : lookupFile stage p with _ | c
    · have hnsp : p ∉ collectRelativePaths stage := fun hm => by
        have hsome := isSome_of_mem_collect hm
        rw [hs] at hsome
        simp at hsome
      rcases hw1 : lookupFile (copyPhase stage (collectRelativePaths stage) ws) p
          with _ | c'
      · exact deletePhase_none _ _ _ p hw1
      · exact deletePhase_removes _ _ _ p
          (mem_collect_of_lookup hw1 hpres) hnsp hpres
    · have hmem : p ∈ collectRelativePaths stage := mem_collect_of_lookup hs hpres
      rw [deletePhase_skip (collectRelativePaths stage) _ _ p (Or.inl hmem)]
      exact copyPhase_mem stage (collectRelativePaths stage) ws p c hs hmem

/-- C3 counterexample: with both recorded stage-state sets empty, a workspace
file absent from the stage is nevertheless deleted by the mirror, so
promotion touches paths outside the recorded write and delete sets. -/
theorem mirror_deletes_unrecorded_file :
    (["extra.txt"] : FsPath) ∉ ([] : List FsPath) ∧
    lookupFile [(["extra.txt"], "x")] ["extra.txt"] = some "x" ∧
    lookupFile (mirrorStageToWorkspace [] [(["extra.txt"], "x")])
      ["extra.txt"] = none :=
  ⟨by simp, rfl, rfl⟩

end Stage

end SlopChop
